import Mathlib

/-!
Verification of the densing schema-driven binary codec.

This development shallowly embeds the codec's data model and algorithms
(src/schema-type.ts, src/helpers.ts, src/densing.ts, src/api.ts) in Lean and
proves or refutes the specified properties.

Conventions of the embedding:
* JS `number` values carried by data records are modelled as rationals (ℚ);
  the codec only ever applies exact fixed-point arithmetic to them.
* JS `BigInt` is modelled as ℤ. JS bitwise ops on BigInt use infinite
  two's complement, so `x & ((1n << bw) - 1n)` is `Int.emod x (2 ^ bw)` and
  the arithmetic right shift `x >> s` is `Int.fdiv x (2 ^ s)`.
* Functions that can `throw` are modelled in `Except String`.
* `Math.ceil(x * Math.log2 k)` style formulas are embedded by their exact
  real-arithmetic characterisations via `Nat.clog` / `Nat.log`.
-/

/-- JS runtime values as far as the codec observes them (schema-type.ts data).
`undefined` and `null` are distinct, as the codec distinguishes them. -/
inductive Value where
  | null : Value
  | undefined : Value
  | bool : Bool → Value
  | num : ℚ → Value
  | str : String → Value
  | arr : List Value → Value
  | obj : List (String × Value) → Value

/-- The tagged-variant field model of schema-type.ts.
`union` variants are `Record<string, DenseField[]>`, modelled as an
association list in insertion order. -/
inductive DenseField where
  | bool (name : String) (defaultValue : Bool)
  | int (name : String) (min max : ℚ) (defaultValue : ℚ)
  | enum (name : String) (options : List String) (defaultValue : String)
  | fixed (name : String) (min max precision : ℚ) (defaultValue : ℚ)
  | array (name : String) (items : DenseField) (minLength maxLength : ℕ)
  | enum_array (name : String) (enumName : String) (options : List String)
      (enumDefault : String) (minLength maxLength : ℕ) (defaultValue : List String)
  | union (name : String) (discName : String) (discOptions : List String)
      (discDefault : String) (variants : List (String × List DenseField))
  | optional (name : String) (field : DenseField) (defaultValue : Value)
  | object (name : String) (fields : List DenseField)
  | pointer (name : String) (targetName : String)

/-- schema-type.ts `DenseSchema`. -/
structure DenseSchema where
  fields : List DenseField

/-- `Math.round` (round half toward +infinity): `Math.round x = ⌊x + 1/2⌋`. -/
def jsRound (q : ℚ) : ℤ := ⌊q + 1/2⌋

/-- JS truthiness of a `Value` (used by `value ? 1 : 0` in the bool arm). -/
def jsTruthy : Value → Bool
  | .null => false
  | .undefined => false
  | .bool b => b
  | .num q => q != 0
  | .str s => s != ""
  | .arr _ => true
  | .obj _ => true

/-- `data[name]` property access on a record value: `undefined` when absent.
(Property access on a non-object is not exercised by the codec on record
positions; it is modelled as `undefined`.) -/
def objGet : Value → String → Value
  | .obj entries, name => (entries.lookup name).getD .undefined
  | _, _ => .undefined

/-! ## Bit-width helper methods (densing.ts lines 5-32) -/

/-- `bitsForRange = range <= 1 ? 0 : Math.ceil(Math.log2(range))`.
In exact arithmetic `⌈log₂ range⌉ = Nat.clog 2 range`. -/
def bitsForRange (range : ℤ) : ℕ :=
  if range ≤ 1 then 0 else Nat.clog 2 range.toNat

/-- `scaleForPrecision = Math.round(1 / precision)`. -/
def scaleForPrecision (precision : ℚ) : ℤ := jsRound (1 / precision)

/-- `bitsForInt = bitsForRange(Math.round(max - min) + 1)`. -/
def bitsForInt (min max : ℚ) : ℕ := bitsForRange (jsRound (max - min) + 1)

/-- `bitsForFixed = bitsForRange(Math.round((max - min) * scaleForPrecision(precision)) + 1)`. -/
def bitsForFixed (min max precision : ℚ) : ℕ :=
  bitsForRange (jsRound ((max - min) * (scaleForPrecision precision : ℚ)) + 1)

/-- `uIntForRange = Math.round(value)`. -/
def uIntForRange (value : ℚ) : ℤ := jsRound value

/-- `uIntForInt = uIntForRange(value - min)`. -/
def uIntForInt (value min : ℚ) : ℤ := uIntForRange (value - min)

/-- `uIntForFixed = uIntForRange((value - min) * scaleForPrecision(precision))`. -/
def uIntForFixed (value min precision : ℚ) : ℤ :=
  uIntForRange ((value - min) * (scaleForPrecision precision : ℚ))

/-- `intFromUint = uIntForRange(uInt) + min` (uInt is already an integer). -/
def intFromUint (uInt : ℕ) (min : ℚ) : ℚ := (uInt : ℚ) + min

/-- `fixedFromUint = uIntForRange(uInt) * precision + min`. -/
def fixedFromUint (uInt : ℕ) (min precision : ℚ) : ℚ := (uInt : ℚ) * precision + min

/-- `bitsForMinMaxLength = bitsForRange(maxLength - minLength + 1)`. -/
def bitsForMinMaxLength (minLength maxLength : ℕ) : ℕ :=
  bitsForRange ((maxLength : ℤ) - (minLength : ℤ) + 1)

/-- `uIntForMinMaxLength = value - minLength`. -/
def uIntForMinMaxLength (value : ℕ) (minLength : ℕ) : ℤ :=
  (value : ℤ) - (minLength : ℤ)

/-- `lengthForUIntMinMaxLength = uInt + minLength`. -/
def lengthForUIntMinMaxLength (uInt : ℕ) (minLength : ℕ) : ℕ := uInt + minLength

/-- `bitsForEnumArrayContent = length < 1 ? 0 : Math.ceil(length * Math.log2(base))`.
In exact arithmetic `⌈length·log₂ base⌉ = ⌈log₂ (base ^ length)⌉ = Nat.clog 2 (base ^ length)`. -/
def bitsForEnumArrayContent (length base : ℕ) : ℕ :=
  if length < 1 then 0 else Nat.clog 2 (base ^ length)

/-- `bitsForOptions = bitsForRange(options.length)`. -/
def bitsForOptions (options : List String) : ℕ := bitsForRange (options.length : ℤ)

/-- `sizeForOptions = options.length`. -/
def sizeForOptions (options : List String) : ℕ := options.length

/-! ## Alphabet / BigInt renderer (helpers.ts lines 12-59) -/

/-- The built-in URL-safe base64 alphabet (helpers.ts line 12). -/
def base64url : String :=
  "ABCDEFGHIJKLMNOPQRSTUVWXYZabcdefghijklmnopqrstuvwxyz0123456789-_"

/-- The built-in QR-safe alphabet (helpers.ts line 13). -/
def baseQRCode45UrlSafe : String := "0123456789ABCDEFGHIJKLMNOPQRSTUVWXYZ-."

/-- `getCharsForBase`: a named built-in resolves to its alphabet, anything
else is used as a custom alphabet string as-is. -/
def getCharsForBase (base : String) : String :=
  if base = "base64url" then base64url
  else if base = "baseQRCode45UrlSafe" then baseQRCode45UrlSafe
  else base

/-- `getMinRequiredCharsForBase = Math.ceil(bitWidth / Math.log2(baseChars.length))`.
In exact arithmetic this is the least `k` with `baseLen ^ k ≥ 2 ^ bitWidth`,
i.e. `Nat.clog baseLen (2 ^ bitWidth)` (alphabets have ≥ 2 symbols). -/
def getMinRequiredCharsForBase (bitWidth : ℕ) (baseLen : ℕ) : ℕ :=
  Nat.clog baseLen (2 ^ bitWidth)

/-- `getMaxBitWidthForBase = Math.floor(baseString.length * Math.log2(baseChars.length))`.
In exact arithmetic `⌊len·log₂ B⌋ = ⌊log₂ (B ^ len)⌋ = Nat.log 2 (B ^ len)`. -/
def getMaxBitWidthForBase (stringLen : ℕ) (baseLen : ℕ) : ℕ :=
  Nat.log 2 (baseLen ^ stringLen)

/-- The digit loop of `getBaseStringFromBigInt`:
`while (bigInt > 0) acc.push(Number(bigInt % base)), (bigInt = bigInt / base)`,
least-significant digit first. (For an alphabet with fewer than 2 symbols the
JS loop would not terminate; that degenerate case returns `[]` here and is
outside every claim.) -/
def jsDigits (base : ℕ) (m : ℕ) : List ℕ :=
  if h : 2 ≤ base ∧ 0 < m then
    (m % base) :: jsDigits base (m / base)
  else []
  termination_by m
  decreasing_by exact Nat.div_lt_self h.2 h.1

/-- `String.prototype.charAt`: single-character string, or `""` out of range. -/
def jsCharAt (s : String) (n : ℕ) : String :=
  match s.data.get? n with
  | some c => String.singleton c
  | none => ""

/-- `getBaseStringFromBigInt` (helpers.ts lines 26-39). Digits are collected
least-significant first, padded with zero digits up to the minimum character
count for `bitWidth`, reversed, and rendered. NOTE (faithful to the source):
line 37 renders every digit with `base64url.charAt(n)`, not with the
requested alphabet's characters. -/
def getBaseStringFromBigInt (bigInt : ℤ) (baseChars : String) (bitWidth : ℕ) : String :=
  let minChars := getMinRequiredCharsForBase bitWidth baseChars.length
  let acc := jsDigits baseChars.length bigInt.toNat
  let padded := acc ++ List.replicate (minChars - acc.length) 0
  String.join ((padded.reverse).map (fun n => jsCharAt base64url n))

/-- `String.prototype.indexOf` for a single character: first index or `-1`. -/
def strIndexOfChar (s : String) (c : Char) : ℤ :=
  if c ∈ s.data then (s.data.indexOf c : ℤ) else -1

/-- `getBigIntFromBaseString` (helpers.ts lines 44-50):
`baseString.split('').map((c) => baseChars.indexOf(c)).reduce((acc, n) => acc * base + BigInt(n), 0n)`. -/
def getBigIntFromBaseString (baseString : String) (baseChars : String) : ℤ :=
  baseString.data.foldl
    (fun acc c => acc * (baseChars.length : ℤ) + strIndexOfChar baseChars c) 0

/-! ## Bit buffer writer / reader (helpers.ts lines 64-131) -/

/-- `BitWriter`: an accumulator big integer and the running bit count. -/
structure BitWriter where
  buffer : ℤ
  bitsWritten : ℕ

/-- `BitWriter.writeUInt`: for `bitWidth ≤ 0` a no-op; otherwise appends the
masked low `bitWidth` bits of `value` at the low end of the accumulator.
`(buffer << bw) | (v & ((1n << bw) - 1n))` equals
`buffer * 2 ^ bw + Int.emod v (2 ^ bw)` (the OR is on disjoint bit ranges). -/
def BitWriter.writeUInt (w : BitWriter) (value : ℤ) (bitWidth : ℕ) : BitWriter :=
  if bitWidth = 0 then w
  else ⟨w.buffer * 2 ^ bitWidth + value.emod (2 ^ bitWidth), w.bitsWritten + bitWidth⟩

/-- `BitWriter.getFromBase`. -/
def BitWriter.getFromBase (w : BitWriter) (base : String) : String :=
  getBaseStringFromBigInt w.buffer (getCharsForBase base) w.bitsWritten

/-- `BitReader`: the parsed payload and how many bits remain unconsumed. -/
structure BitReader where
  buffer : ℤ
  bitsLeft : ℕ

/-- `BitReader.readUBigInt` (helpers.ts lines 109-124): 0 bits reads 0 without
consuming; more bits than remain is an error; otherwise the value is
`(buffer >> bitsLeft') & ((1n << bw) - 1n)`, i.e.
`Int.emod (Int.fdiv buffer (2 ^ bitsLeft')) (2 ^ bitWidth)`. -/
def BitReader.readUBigInt (r : BitReader) (bitWidth : ℕ) : Except String (ℤ × BitReader) :=
  if bitWidth = 0 then .ok (0, r)
  else if r.bitsLeft < bitWidth then .error ("Not enough bits left")
  else
    let bitsLeft' := r.bitsLeft - bitWidth
    .ok ((r.buffer.fdiv (2 ^ bitsLeft')).emod (2 ^ bitWidth), ⟨r.buffer, bitsLeft'⟩)

/-- `BitReader.readUInt` (helpers.ts lines 103-107): 0 bits reads 0; widths
above 32 are rejected; otherwise delegates to `readUBigInt` (whose result is
nonnegative, so `Number` conversion is `Int.toNat`). -/
def BitReader.readUInt (r : BitReader) (bitWidth : ℕ) : Except String (ℕ × BitReader) :=
  if bitWidth = 0 then .ok (0, r)
  else if 32 < bitWidth then .error ("Cannot read more than 32 bits into a UInt at a time")
  else (r.readUBigInt bitWidth).map (fun p => (p.1.toNat, p.2))

/-- `BitReader.getFromBase` (static, helpers.ts lines 126-130). -/
def BitReader.getFromBase (baseString : String) (base : String) : BitReader :=
  ⟨getBigIntFromBaseString baseString (getCharsForBase base),
   getMaxBitWidthForBase baseString.length (getCharsForBase base).length⟩

/-! ## Constant-bit-width field helpers (densing.ts lines 47-71, 154-165) -/

/-- The `name` property shared by every field variant. -/
def DenseField.name : DenseField → String
  | .bool n _ => n
  | .int n _ _ _ => n
  | .enum n _ _ => n
  | .fixed n _ _ _ _ => n
  | .array n _ _ _ => n
  | .enum_array n _ _ _ _ _ _ => n
  | .union n _ _ _ _ => n
  | .optional n _ _ => n
  | .object n _ => n
  | .pointer n _ => n

/-- `options.indexOf(value)` where `options` is a string array and `value` an
arbitrary JS value: the first index of a matching string, `-1` otherwise
(a non-string value never strictly equals a string). -/
def strListIndexOfV (options : List String) (v : Value) : ℤ :=
  match v with
  | .str s => if s ∈ options then (options.indexOf s : ℤ) else -1
  | _ => -1

/-- `getUIntForConstantBitWidthField` (densing.ts lines 47-58). For `int` and
`fixed`, arithmetic on a non-number value would produce `NaN` in JS and the
subsequent `BigInt(NaN)` inside `writeUInt` throws a TypeError; that path is
modelled as the error arm here. The `enum` arm is `options.indexOf(value)`,
which is `-1` (not an error) for an undeclared value. -/
def getUIntForConstantBitWidthField (field : DenseField) (value : Value) : Except String ℤ :=
  match field with
  | .bool _ _ => .ok (if jsTruthy value then 1 else 0)
  | .int _ min _ _ =>
    match value with
    | .num q => .ok (uIntForInt q min)
    | _ => .error ("value is not a number")
  | .enum _ options _ => .ok (strListIndexOfV options value)
  | .fixed _ min _ precision _ =>
    match value with
    | .num q => .ok (uIntForFixed q min precision)
    | _ => .error ("value is not a number")
  | _ => .error ("not a constant bit width field")

/-- `getBitWidthForContantBitWidthFields` (densing.ts lines 60-71; the source
spells it without the `s` in `Constant`). Only called on the four constant
width kinds; other kinds are unreachable and return 0. -/
def getBitWidthForContantBitWidthFields (field : DenseField) : ℕ :=
  match field with
  | .bool _ _ => 1
  | .int _ min max _ => bitsForInt min max
  | .enum _ options _ => bitsForOptions options
  | .fixed _ min max precision _ => bitsForFixed min max precision
  | _ => 0

/-- `undensingDataForConstantBitWidthField` (densing.ts lines 154-165).
`options[uInt]` out of range is JS `undefined`. -/
def undensingDataForConstantBitWidthField (field : DenseField) (unsignedInt : ℕ) : Value :=
  match field with
  | .bool _ _ => .bool (unsignedInt != 0)
  | .int _ min _ _ => .num (intFromUint unsignedInt min)
  | .enum _ options _ =>
    match options.get? unsignedInt with
    | some s => .str s
    | none => .undefined
  | .fixed _ min _ precision _ => .num (fixedFromUint unsignedInt min precision)
  | _ => .undefined

/-- The `reduce` of the `enum_array` encode arm (densing.ts lines 113-117):
`acc = acc * base + BigInt(idx)` left-to-right, failing on the first element
whose index is `-1`. -/
def enumArrayFold (options : List String) (elems : List Value) (acc : ℤ) : Except String ℤ :=
  match elems with
  | [] => .ok acc
  | c :: rest =>
    let idx := strListIndexOfV options c
    if idx = -1 then .error ("Invalid enum value in array")
    else enumArrayFold options rest (acc * (sizeForOptions options : ℤ) + idx)

/-- The divmod loop of the `enum_array` decode arm (densing.ts lines 209-214):
each step takes `idx = Number(bigIntValue % base)`, unshifts `options[idx]`
(JS `undefined` when out of range) and divides. On the nonnegative values
delivered by `readUBigInt`, JS `%` and `/` agree with `emod` and `fdiv`. -/
def enumArrayLoop (options : List String) (base : ℕ) : ℕ → ℤ → List Value → List Value
  | 0, _, result => result
  | n + 1, b, result =>
    let idx := (b.emod (base : ℤ)).toNat
    let el := match options.get? idx with
      | some s => Value.str s
      | none => Value.undefined
    enumArrayLoop options base n (b.fdiv (base : ℤ)) (el :: result)

/-! ## Recursive encoder (densing.ts lines 41-45, 79-138)

`densingField`'s switch in the source has NO `pointer` arm: a pointer field
matches no case and the function returns with the writer untouched. -/

mutual

/-- `densingField` (densing.ts lines 79-138). -/
def densingField (w : BitWriter) (field : DenseField) (value : Value) :
    Except String BitWriter :=
  match field with
  | .bool .. | .int .. | .enum .. | .fixed .. => do
    let u ← getUIntForConstantBitWidthField field value
    .ok (w.writeUInt u (getBitWidthForContantBitWidthFields field))
  | .array _ items minLength maxLength =>
    match value with
    | .arr elems =>
      let arrayLengthBits := bitsForMinMaxLength minLength maxLength
      let w1 := if arrayLengthBits = 0 then w
        else w.writeUInt (uIntForMinMaxLength elems.length minLength) arrayLengthBits
      densingValueList w1 items elems
    | _ => .error ("value of array is not an array")
  | .union _ discName discOptions _ variants =>
    let discValue := objGet value discName
    match discValue, strListIndexOfV discOptions discValue with
    | .str s, discIdx =>
      if discIdx = -1 then .error ("Invalid union discriminator value")
      else densingVariants (w.writeUInt discIdx (bitsForOptions discOptions)) variants s value
    | _, _ => .error ("Invalid union discriminator value")
  | .enum_array _ _ options _ minLength maxLength _ =>
    match value with
    | .arr elems =>
      let arrayLengthBits := bitsForMinMaxLength minLength maxLength
      let w1 := if arrayLengthBits = 0 then w
        else w.writeUInt (uIntForMinMaxLength elems.length minLength) arrayLengthBits
      do
        let result ← enumArrayFold options elems 0
        .ok (w1.writeUInt result (bitsForEnumArrayContent elems.length (sizeForOptions options)))
    | _ => .error ("value of enum_array is not an array")
  | .optional _ inner _ =>
    -- `isPresent = value !== undefined && value !== null`; the presence bit is
    -- written first, then the inner field only when present.
    match value with
    | .undefined => .ok (w.writeUInt 0 1)
    | .null => .ok (w.writeUInt 0 1)
    | _ => densingField (w.writeUInt 1 1) inner value
  | .object _ fields =>
    match value with
    | .obj _ => densingFieldList w fields value
    | .arr _ => densingFieldList w fields value
    | _ => .error ("value of object is not an object")
  | .pointer _ _ => .ok w
termination_by (sizeOf field, 0)

/-- `fields.forEach((f) => densingField(w, f, value[f.name]))` — the body of
both the `object` arm and the top-level `densing` loop. -/
def densingFieldList (w : BitWriter) (fields : List DenseField) (record : Value) :
    Except String BitWriter :=
  match fields with
  | [] => .ok w
  | f :: rest => do
    let w1 ← densingField w f (objGet record f.name)
    densingFieldList w1 rest record
termination_by (sizeOf fields, 0)

/-- `field.variants[discValue].forEach(...)` of the `union` encode arm: finds
the variant's field list by key (an absent key would be a JS TypeError,
modelled as an error). -/
def densingVariants (w : BitWriter) (variants : List (String × List DenseField))
    (key : String) (record : Value) : Except String BitWriter :=
  match variants with
  | [] => .error ("union variant is not defined")
  | (k, fs) :: rest =>
    if k = key then densingFieldList w fs record
    else densingVariants w rest key record
termination_by (sizeOf variants, 0)

/-- `(value as any[]).forEach((v) => densingField(w, field.items, v))` of the
`array` encode arm. -/
def densingValueList (w : BitWriter) (items : DenseField) (values : List Value) :
    Except String BitWriter :=
  match values with
  | [] => .ok w
  | v :: rest => do
    let w1 ← densingField w items v
    densingValueList w1 items rest
termination_by (sizeOf items, values.length + 1)

end

/-- `densing` (densing.ts lines 41-45). -/
def densing (denseSchema : DenseSchema) (data : Value) (base : String) :
    Except String String := do
  let w ← densingFieldList ⟨0, 0⟩ denseSchema.fields data
  .ok (w.getFromBase base)

/-! ## Recursive decoder (densing.ts lines 147-152, 173-228)

As in the encoder, the source switch has NO `pointer` arm: a pointer field
matches no case and the function returns JS `undefined`, reading nothing. -/

mutual

/-- `undensingField` (densing.ts lines 173-228). -/
def undensingField (r : BitReader) (denseField : DenseField) :
    Except String (Value × BitReader) :=
  match denseField with
  | .bool .. | .int .. | .enum .. | .fixed .. => do
    let (u, r1) ← r.readUInt (getBitWidthForContantBitWidthFields denseField)
    .ok (undensingDataForConstantBitWidthField denseField u, r1)
  | .array _ items minLength maxLength => do
    let (u, r1) ← r.readUInt (bitsForMinMaxLength minLength maxLength)
    let (vs, r2) ← undensingArrayItems r1 items (lengthForUIntMinMaxLength u minLength)
    .ok (.arr vs, r2)
  | .union _ discName discOptions _ variants => do
    let (idx, r1) ← r.readUInt (bitsForOptions discOptions)
    match discOptions.get? idx with
    | some key => do
      let (entries, r2) ← undensingVariants r1 variants key
      .ok (.obj ((discName, .str key) :: entries), r2)
    | none => .error ("union variant is not defined")
  | .enum_array _ _ options _ minLength maxLength _ => do
    let base := sizeForOptions options
    let (u, r1) ← r.readUInt (bitsForMinMaxLength minLength maxLength)
    let length := lengthForUIntMinMaxLength u minLength
    let (bigIntValue, r2) ← r1.readUBigInt (bitsForEnumArrayContent length base)
    .ok (.arr (enumArrayLoop options base length bigIntValue []), r2)
  | .optional _ inner defaultValue => do
    let (u, r1) ← r.readUInt 1
    if u != 0 then undensingField r1 inner
    else
      .ok ((match defaultValue with
        | .undefined => Value.null
        | dv => dv), r1)
  | .object _ fields => do
    let (entries, r1) ← undensingFieldList r fields
    .ok (.obj entries, r1)
  | .pointer _ _ => .ok (.undefined, r)
termination_by (sizeOf denseField, 0)

/-- `denseField.fields.map((f) => [f.name, undensingField(r, f)])` — the body
of both the `object` decode arm and the top-level `undensing` loop. -/
def undensingFieldList (r : BitReader) (fields : List DenseField) :
    Except String (List (String × Value) × BitReader) :=
  match fields with
  | [] => .ok ([], r)
  | f :: rest => do
    let (v, r1) ← undensingField r f
    let (entries, r2) ← undensingFieldList r1 rest
    .ok ((f.name, v) :: entries, r2)
termination_by (sizeOf fields, 0)

/-- `denseField.variants[key].forEach(...)` of the `union` decode arm. -/
def undensingVariants (r : BitReader) (variants : List (String × List DenseField))
    (key : String) : Except String (List (String × Value) × BitReader) :=
  match variants with
  | [] => .error ("union variant is not defined")
  | (k, fs) :: rest =>
    if k = key then undensingFieldList r fs
    else undensingVariants r rest key
termination_by (sizeOf variants, 0)

/-- `Array.from({ length }, () => undensingField(r, denseField.items))` of the
`array` decode arm: `length` sequential decodes of the item field. -/
def undensingArrayItems (r : BitReader) (items : DenseField) (length : ℕ) :
    Except String (List Value × BitReader) :=
  match length with
  | 0 => .ok ([], r)
  | n + 1 => do
    let (v, r1) ← undensingField r items
    let (vs, r2) ← undensingArrayItems r1 items n
    .ok (v :: vs, r2)
termination_by (sizeOf items, length + 1)

end

/-- `undensing` (densing.ts lines 147-152). -/
def undensing (denseSchema : DenseSchema) (baseString : String) (base : String) :
    Except String Value := do
  let r := BitReader.getFromBase baseString base
  let (entries, _) ← undensingFieldList r denseSchema.fields
  .ok (.obj entries)

/-! ## Schema introspection (api.ts lines 11-46, 154-212)

`resolveDenseFieldByNameForPointer` searches the schema depth-first by name.
Its identity-based `visited` set only guards against aliased/cyclic object
graphs; on inductively built (tree-shaped) schemas it never skips anything and
is omitted from the embedding. -/

mutual

/-- The `findField` loop over a field list (api.ts lines 15-43). -/
def findFieldInList (fields : List DenseField) (target : String) : Option DenseField :=
  match fields with
  | [] => none
  | f :: rest =>
    if f.name = target then some f
    else
      match findFieldInField f target with
      | some g => some g
      | none => findFieldInList rest target
termination_by sizeOf fields

/-- Per-field descent of `findField`. For `array`, the source checks
`field.items.name` and then calls `findField([field.items])`, which re-checks
the name and descends into `items`; likewise `optional` descends via
`findField([field.field])`. -/
def findFieldInField (field : DenseField) (target : String) : Option DenseField :=
  match field with
  | .object _ fs => findFieldInList fs target
  | .union _ _ _ _ variants => findFieldInVariants variants target
  | .array _ items _ _ =>
    if items.name = target then some items
    else findFieldInField items target
  | .optional _ inner _ =>
    if inner.name = target then some inner
    else findFieldInField inner target
  | _ => none
termination_by sizeOf field

/-- `findField` over `Object.values(field.variants)` (api.ts lines 26-30). -/
def findFieldInVariants (variants : List (String × List DenseField)) (target : String) :
    Option DenseField :=
  match variants with
  | [] => none
  | (_, fs) :: rest =>
    match findFieldInList fs target with
    | some g => some g
    | none => findFieldInVariants rest target
termination_by sizeOf variants

end

/-- `resolveDenseFieldByNameForPointer` (api.ts lines 11-46). -/
def resolveDenseFieldByNameForPointer (denseSchema : DenseSchema)
    (pointerTargetName : String) : Option DenseField :=
  findFieldInList denseSchema.fields pointerTargetName

/-! `calculateDenseFieldBitWidth` (api.ts lines 154-212). Pointer resolution
re-enters the function on the resolved target, so the JS recursion depth is
bounded only by the data (and can diverge on cyclic pointer chains with
missing data); the embedding makes the call stack explicit with a fuel
argument, `fuel = 0` modelling stack exhaustion. -/

/-- `calculateDenseFieldBitWidth` (api.ts lines 154-212). The `array`,
`object` and `union` arms are the source's `reduce` over elements / fields. -/
def calculateDenseFieldBitWidth : ℕ → DenseField → Value → Option DenseSchema →
    Except String ℕ
  | 0, _, _, _ => .error ("call stack exhausted")
  | fuel + 1, field, value, schema =>
    match field with
    | .bool .. | .int .. | .enum .. | .fixed .. =>
      .ok (getBitWidthForContantBitWidthFields field)
    | .optional _ inner _ =>
      -- `isPresent = value !== null && value !== undefined`
      match value with
      | .undefined => .ok 1
      | .null => .ok 1
      | _ => do
        let b ← calculateDenseFieldBitWidth fuel inner value schema
        .ok (1 + b)
    | .array _ items minLength maxLength =>
      match value with
      | .arr elems => do
        let content ← elems.foldlM
          (fun sum item => do
            let b ← calculateDenseFieldBitWidth fuel items item schema
            pure (sum + b)) 0
        .ok (bitsForMinMaxLength minLength maxLength + content)
      | _ => .ok 0
    | .enum_array _ _ options _ minLength maxLength _ =>
      match value with
      | .arr elems =>
        let base := options.length
        .ok (bitsForMinMaxLength minLength maxLength +
          if elems.length = 0 then 0 else Nat.clog 2 (base ^ elems.length))
      | _ => .ok 0
    | .object _ fields =>
      fields.foldlM
        (fun sum f => do
          let b ← calculateDenseFieldBitWidth fuel f (objGet value f.name) schema
          pure (sum + b)) 0
    | .union _ discName discOptions _ variants =>
      let discriminatorBits := bitsForOptions discOptions
      let variantType := objGet value discName
      if jsTruthy variantType then
        let variantFields := match variantType with
          | .str s => (variants.lookup s).getD []
          | _ => []
        do
          let b ← variantFields.foldlM
            (fun sum f => do
              let c ← calculateDenseFieldBitWidth fuel f (objGet value f.name) schema
              pure (sum + c)) 0
          .ok (discriminatorBits + b)
      else .ok discriminatorBits
    | .pointer _ targetName =>
      match schema with
      | none => .error ("Pointer field requires schema context")
      | some sch =>
        match resolveDenseFieldByNameForPointer sch targetName with
        | none => .error ("Pointer field references unknown field")
        | some targetField => calculateDenseFieldBitWidth fuel targetField value schema

/-! ## Concrete schemas used as failing inputs / witnesses -/

/-- A schema with a single boolean field, as in boolean.test.ts. -/
def boolSchema : DenseSchema := ⟨[.bool "enabled" false]⟩

/-- A schema with one optional 10-bit int field (no configured default). -/
def optIntSchema : DenseSchema := ⟨[.optional "x" (.int "v" 0 1023 0) .undefined]⟩

/-- A schema with a 10-bit int field and a pointer targeting it. -/
def ptrIntSchema : DenseSchema := ⟨[.int "v" 0 1000 0, .pointer "p" "v"]⟩

/-- A schema consisting of a single pointer whose target name resolves nowhere. -/
def pointerOnlySchema : DenseSchema := ⟨[.pointer "p" "missing"]⟩

/-- The mixed-radix accumulator the spec prescribes for `enum_array` content:
`acc = acc * optionCount + index` over the elements in order,
most-significant element first. -/
def enumArrayIndexValue (options : List String) (elems : List String) : ℕ :=
  elems.foldl (fun acc c => acc * options.length + options.indexOf c) 0

/-! ## General helper lemmas -/

/-- Computes `Nat.clog` at concrete points. -/
theorem natClog_eq_of {b n m : ℕ} (hb : 1 < b) (hm : 0 < m)
    (h1 : n ≤ b ^ m) (h2 : b ^ (m - 1) < n) : Nat.clog b n = m := by
  refine le_antisymm ((Nat.le_pow_iff_clog_le hb).mp h1) ?_
  have h3 := (Nat.pow_lt_iff_lt_clog hb).mp h2
  omega

/-! ## C1: the round-trip law fails over the default base64url alphabet -/

/-- Claim C1 (code bug): the round-trip law fails already for a single
boolean field over the default base64url alphabet. `densing` renders 1 bit of
payload as "B" (value 1), but `BitReader.getFromBase` grants the decoder
`⌊1·log₂ 64⌋ = 6` bits of capacity, so the first read is taken 5 bit
positions above the written bit and `undensing` returns `false` for an
encoded `true` (boolean.test.ts, 'boolean round-trip test', expects `true`). -/
theorem undensing_of_densing_bool_true_is_false :
    densing boolSchema (.obj [("enabled", .bool true)]) "base64url" = .ok "B" ∧
    undensing boolSchema "B" "base64url" = .ok (.obj [("enabled", .bool false)]) ∧
    Value.bool false ≠ Value.bool true := by
  have h1 : getMinRequiredCharsForBase 1 64 = 1 :=
    natClog_eq_of (by norm_num) (by norm_num) (by norm_num) (by norm_num)
  have h2 : jsDigits 64 1 = [1] := by
    rw [jsDigits]; norm_num; rw [jsDigits]; norm_num
  have h3 : base64url.length = 64 := by decide
  have h4 : getMaxBitWidthForBase "B".length 64 = 6 := by
    show Nat.log 2 (64 ^ 1) = 6
    exact Nat.log_eq_of_pow_le_of_lt_pow (by norm_num) (by norm_num)
  have h5 : getBigIntFromBaseString "B" (getCharsForBase "base64url") = 1 := by decide
  have h6 : (getCharsForBase "base64url").length = 64 := by decide
  have e1 : (1 : ℤ).emod 2 = 1 := by decide
  refine ⟨?_, ?_, by simp⟩
  · simp [densing, densingFieldList, densingField, getUIntForConstantBitWidthField,
      getBitWidthForContantBitWidthFields, jsTruthy, objGet, BitWriter.writeUInt,
      BitWriter.getFromBase, getBaseStringFromBigInt, getCharsForBase, h1, h2, h3,
      boolSchema, DenseField.name, Except.bind, Except.map, Except.pure, Bind.bind,
      Pure.pure, e1]
    decide
  · simp [undensing, undensingFieldList, undensingField,
      undensingDataForConstantBitWidthField, getBitWidthForContantBitWidthFields,
      BitReader.getFromBase, BitReader.readUInt, BitReader.readUBigInt, h4, h5, h6,
      boolSchema, DenseField.name, Except.bind, Except.map, Except.pure, Bind.bind,
      Pure.pure]
    decide

/-! ## C2: the pointer field kind is not handled by the codec -/

/-- Claim C2 (code bug): `densingField`'s switch has no `pointer` arm, so a
pointer field writes nothing, resolves nothing and never errors (even with an
unresolvable target name); `undensingField` likewise returns `undefined`
without reading. Encoding a schema whose only field is a pointer with an
unknown target succeeds with the empty string instead of failing. -/
theorem densingField_pointer_writes_nothing :
    (∀ (w : BitWriter) (n t : String) (v : Value),
      densingField w (.pointer n t) v = .ok w) ∧
    (∀ (r : BitReader) (n t : String),
      undensingField r (.pointer n t) = .ok (.undefined, r)) ∧
    densing pointerOnlySchema (.obj []) "base64url" = .ok "" := by
  have h1 : getMinRequiredCharsForBase 0 64 = 0 := by
    show Nat.clog 64 (2 ^ 0) = 0
    norm_num
  have h2 : jsDigits 64 0 = [] := by rw [jsDigits]; norm_num
  have h3 : base64url.length = 64 := by decide
  refine ⟨fun w n t v => by simp [densingField], fun r n t => by simp [undensingField], ?_⟩
  simp [densing, densingFieldList, densingField, objGet, BitWriter.getFromBase,
    getBaseStringFromBigInt, getCharsForBase, h1, h2, h3, pointerOnlySchema,
    DenseField.name, Except.bind, Except.map, Except.pure, Bind.bind, Pure.pure]
  decide

/-! ## C3: the renderer uses base64url glyphs for every alphabet -/

/-- Claim C3 (code bug): `getBaseStringFromBigInt` renders every digit with
`base64url.charAt` (helpers.ts line 37) instead of the requested alphabet's
characters, so the alphabet round-trip fails for the custom alphabet "01":
rendering `1` gives "B", whose parse maps the foreign character to `-1`. -/
theorem alphabet_01_roundtrip_broken :
    getBaseStringFromBigInt 1 "01" 1 = "B" ∧
    getBigIntFromBaseString "B" "01" = -1 ∧
    (-1 : ℤ) ≠ 1 := by
  have h1 : getMinRequiredCharsForBase 1 2 = 1 :=
    natClog_eq_of (by norm_num) (by norm_num) (by norm_num) (by norm_num)
  have h2 : jsDigits 2 1 = [1] := by
    rw [jsDigits]; norm_num; rw [jsDigits]; norm_num
  refine ⟨?_, by decide, by decide⟩
  have h3 : ("01" : String).length = 2 := by decide
  simp [getBaseStringFromBigInt, h1, h2, h3]
  decide

/-- Computes `jsRound` at concrete points. -/
theorem jsRound_eq {q : ℚ} {z : ℤ} (h1 : (z : ℚ) ≤ q + 1/2) (h2 : q + 1/2 < z + 1) :
    jsRound q = z := by
  rw [jsRound]
  exact Int.floor_eq_iff.mpr ⟨h1, h2⟩

/-! ## C4: bit-width determinism fails on pointer fields -/

/-- Claim C4 (code bug): `calculateDenseFieldBitWidth` resolves a pointer
field and reports the target's width (10 bits for an int 0..1000), but
`densingField` has no pointer arm and writes 0 bits for the very same field
and value, so the pre-computed width does not equal the bits consumed. -/
theorem calculateDenseFieldBitWidth_pointer_mismatch :
    calculateDenseFieldBitWidth 2 (.pointer "p" "v") (.num 42) (some ptrIntSchema) =
      .ok 10 ∧
    densingField ⟨0, 0⟩ (.pointer "p" "v") (.num 42) = .ok ⟨0, 0⟩ ∧
    (10 : ℕ) ≠ 0 := by
  have hr : jsRound ((1000 : ℚ) - 0) = 1000 := jsRound_eq (by norm_num) (by norm_num)
  have hb : bitsForInt 0 1000 = 10 := by
    rw [bitsForInt, hr, bitsForRange]
    norm_num
    exact natClog_eq_of (by norm_num) (by norm_num) (by norm_num) (by norm_num)
  refine ⟨?_, by simp [densingField], by norm_num⟩
  simp [calculateDenseFieldBitWidth, resolveDenseFieldByNameForPointer, findFieldInList,
    findFieldInField, DenseField.name, ptrIntSchema, getBitWidthForContantBitWidthFields,
    hb, Except.bind, Except.map, Except.pure, Bind.bind, Pure.pure]

/-! ## C6: decoding a truncated string can return a wrong record -/

/-- Encoding the present optional int 42 writes the presence bit 1 followed by
10 payload bits for 42, ending with buffer 1066 and 11 bits written. -/
theorem densingField_optional_int_step :
    densingField ⟨0, 0⟩ (.optional "x" (.int "v" 0 1023 0) .undefined)
      (.num 42) = .ok ⟨1066, 11⟩ := by
  have hr : jsRound (42 : ℚ) = 42 := jsRound_eq (by norm_num) (by norm_num)
  have hb : bitsForInt 0 1023 = 10 := by
    rw [bitsForInt]
    have : jsRound ((1023 : ℚ) - 0) = 1023 := jsRound_eq (by norm_num) (by norm_num)
    rw [this, bitsForRange]
    norm_num
    exact natClog_eq_of (by norm_num) (by norm_num) (by norm_num) (by norm_num)
  have hu : getUIntForConstantBitWidthField (.int "v" 0 1023 0) (.num 42) = .ok 42 := by
    simp [getUIntForConstantBitWidthField, uIntForInt, uIntForRange, hr]
  have hbw : getBitWidthForContantBitWidthFields (.int "v" 0 1023 0) = 10 := by
    simp [getBitWidthForContantBitWidthFields, hb]
  simp only [densingField, hu, hbw, Except.bind, Except.map, Except.pure, Bind.bind, Pure.pure]
  rfl

/-- Rendering the 11-bit payload 1066 over the default base64url alphabet gives
the two-character string "Qq" (digits 16 and 42 base 64). -/
theorem getFromBase_payload_1066 :
    BitWriter.getFromBase ⟨1066, 11⟩ "base64url" = "Qq" := by
  have h1 : getMinRequiredCharsForBase 11 64 = 2 :=
    natClog_eq_of (by norm_num) (by norm_num) (by norm_num) (by norm_num)
  have h2 : jsDigits 64 1066 = [42, 16] := by
    rw [jsDigits]; norm_num; rw [jsDigits]; norm_num; rw [jsDigits]; norm_num
  have h3 : base64url.length = 64 := by decide
  have hg : getCharsForBase "base64url" = base64url := rfl
  have ht : (1066 : ℤ).toNat = 1066 := rfl
  simp only [BitWriter.getFromBase, getBaseStringFromBigInt, hg, h3, ht, h1, h2]
  decide

/-- Densing the record over the optional-int schema yields "Qq". -/
theorem densing_optIntSchema_42 :
    densing optIntSchema (.obj [("x", .num 42)]) "base64url" = .ok "Qq" := by
  simp only [densing, densingFieldList, DenseField.name, optIntSchema, Except.bind,
    Except.map, Except.pure, Bind.bind, Pure.pure]
  have hget : objGet (.obj [("x", .num 42)]) "x" = .num 42 := by
    simp [objGet]
  rw [hget, densingField_optional_int_step]
  simp only [Except.bind]
  rw [getFromBase_payload_1066]

/-- Claim C6 (code bug): for the optional-int schema, `densing` produces "Qq"
(11 bits of payload). Decoding the truncated string "Q" does NOT fail with an
insufficient-bits error: the reader is granted 6 bits of capacity, reads the
presence bit from a zero padding position, concludes the optional field is
absent, and returns the wrong record `{x: null}` with no error at all. -/
theorem undensing_truncated_returns_wrong_record :
    densing optIntSchema (.obj [("x", .num 42)]) "base64url" = .ok "Qq" ∧
    undensing optIntSchema "Q" "base64url" = .ok (.obj [("x", .null)]) := by
  have hparse : BitReader.getFromBase "Q" "base64url" = ⟨16, 6⟩ := by
    have h4 : getMaxBitWidthForBase "Q".length 64 = 6 := by
      show Nat.log 2 (64 ^ 1) = 6
      exact Nat.log_eq_of_pow_le_of_lt_pow (by norm_num) (by norm_num)
    have h5 : getBigIntFromBaseString "Q" (getCharsForBase "base64url") = 16 := by decide
    simp only [BitReader.getFromBase]
    rw [h5]
    have h6 : (getCharsForBase "base64url").length = 64 := by decide
    rw [h6, h4]
  have hdec_opt : undensingField ⟨16, 6⟩ (.optional "x" (.int "v" 0 1023 0) .undefined) =
      .ok (.null, ⟨16, 5⟩) := by
    simp only [undensingField]
    have hr1 : BitReader.readUInt ⟨16, 6⟩ 1 = .ok (0, ⟨16, 5⟩) := rfl
    rw [hr1]
    rfl
  constructor
  · exact densing_optIntSchema_42
  · simp only [undensing, undensingFieldList, DenseField.name, optIntSchema, Except.bind,
      Except.map, Except.pure, Bind.bind, Pure.pure]
    rw [hparse, hdec_opt]

/-! ## C7: the BitReader error contract -/

/-- Claim C7 (confirmed): `readUBigInt w` fails exactly when `w` exceeds the
bits remaining, and on success consumes exactly `w` bits; a 0-bit request
(either entry point) returns 0 without consuming; `readUInt` rejects every
width above 32. -/
theorem bitreader_error_contract (r : BitReader) (w : ℕ) :
    ((∃ msg, r.readUBigInt w = .error msg) ↔ r.bitsLeft < w) ∧
    (∀ v r', r.readUBigInt w = .ok (v, r') → r'.bitsLeft = r.bitsLeft - w) ∧
    (r.readUBigInt 0 = .ok (0, r)) ∧
    (r.readUInt 0 = .ok (0, r)) ∧
    (32 < w → ∃ msg, r.readUInt w = .error msg) := by
  refine ⟨?_, ?_, by simp [BitReader.readUBigInt], by simp [BitReader.readUInt], ?_⟩
  · rw [BitReader.readUBigInt]
    by_cases h0 : w = 0
    · subst h0
      simp
    · by_cases hlt : r.bitsLeft < w
      · simp [h0, hlt]
      · simp [h0, hlt]
  · intro v r'
    rw [BitReader.readUBigInt]
    by_cases h0 : w = 0
    · subst h0
      simp
      intro hv hr
      subst hr
      simp
    · by_cases hlt : r.bitsLeft < w
      · simp [h0, hlt]
      · simp [h0, hlt]
        intro hv hr
        subst hr
        simp
  · intro h32
    rw [BitReader.readUInt]
    have h0 : w ≠ 0 := by omega
    simp [h0, h32]

/-- Witness for C7: concrete instances of each clause. -/
theorem bitreader_error_contract_witness :
    (∃ msg, BitReader.readUBigInt ⟨5, 3⟩ 4 = .error msg) ∧
    BitReader.readUInt ⟨5, 3⟩ 0 = .ok (0, ⟨5, 3⟩) ∧
    (∃ msg, BitReader.readUInt ⟨5, 40⟩ 33 = .error msg) ∧
    (∀ v r', BitReader.readUBigInt ⟨5, 7⟩ 3 = .ok (v, r') → r'.bitsLeft = 7 - 3) :=
  ⟨(bitreader_error_contract ⟨5, 3⟩ 4).1.mpr (by norm_num),
   (bitreader_error_contract ⟨5, 3⟩ 0).2.2.2.1,
   (bitreader_error_contract ⟨5, 40⟩ 33).2.2.2.2 (by norm_num),
   fun v r' h => (bitreader_error_contract ⟨5, 7⟩ 3).2.1 v r' h⟩

/-! ## C9: collapsed ranges occupy zero bits -/

/-- Claim C9 (confirmed): an `int` field with `min = max`, and a `fixed` field
whose scaled range rounds to a single quantization level, have constant width
0; encoding writes nothing (whatever the writer state, i.e. at any position
and any number of times) and decoding reconstructs the sole legal value
(`min`) from the schema alone, consuming nothing. -/
theorem collapsed_range_zero_bits (name fname : String) (mn dv q fmn fmx prec fdv fq : ℚ)
    (hfix : jsRound ((fmx - fmn) * (scaleForPrecision prec : ℚ)) = 0) :
    getBitWidthForContantBitWidthFields (.int name mn mn dv) = 0 ∧
    (∀ w : BitWriter, densingField w (.int name mn mn dv) (.num q) = .ok w) ∧
    (∀ r : BitReader, undensingField r (.int name mn mn dv) = .ok (.num mn, r)) ∧
    getBitWidthForContantBitWidthFields (.fixed fname fmn fmx prec fdv) = 0 ∧
    (∀ w : BitWriter, densingField w (.fixed fname fmn fmx prec fdv) (.num fq) = .ok w) ∧
    (∀ r : BitReader, undensingField r (.fixed fname fmn fmx prec fdv) = .ok (.num fmn, r)) := by
  have hz : jsRound ((0 : ℚ)) = 0 := jsRound_eq (by norm_num) (by norm_num)
  have hint : getBitWidthForContantBitWidthFields (.int name mn mn dv) = 0 := by
    simp [getBitWidthForContantBitWidthFields, bitsForInt, bitsForRange, hz]
  have hfx : getBitWidthForContantBitWidthFields (.fixed fname fmn fmx prec fdv) = 0 := by
    simp [getBitWidthForContantBitWidthFields, bitsForFixed, bitsForRange, hfix]
  refine ⟨hint, fun w => ?_, fun r => ?_, hfx, fun w => ?_, fun r => ?_⟩
  · simp [densingField, getUIntForConstantBitWidthField, hint, BitWriter.writeUInt,
      Except.bind, Except.map, Except.pure, Bind.bind, Pure.pure]
  · simp [undensingField, hint, BitReader.readUInt, undensingDataForConstantBitWidthField,
      intFromUint, Except.bind, Except.map, Except.pure, Bind.bind, Pure.pure]
  · simp [densingField, getUIntForConstantBitWidthField, hfx, BitWriter.writeUInt,
      Except.bind, Except.map, Except.pure, Bind.bind, Pure.pure]
  · simp [undensingField, hfx, BitReader.readUInt, undensingDataForConstantBitWidthField,
      fixedFromUint, Except.bind, Except.map, Except.pure, Bind.bind, Pure.pure]

/-- Witness for C9: `int(5,5)` and `fixed(1,1,0.1)` at concrete writer and
reader states. -/
theorem collapsed_range_zero_bits_witness :
    getBitWidthForContantBitWidthFields (.int "a" 5 5 5) = 0 ∧
    densingField ⟨0, 0⟩ (.int "a" 5 5 5) (.num 5) = .ok ⟨0, 0⟩ ∧
    undensingField ⟨7, 3⟩ (.int "a" 5 5 5) = .ok (.num 5, ⟨7, 3⟩) ∧
    getBitWidthForContantBitWidthFields (.fixed "f" 1 1 (1/10) 1) = 0 ∧
    densingField ⟨9, 4⟩ (.fixed "f" 1 1 (1/10) 1) (.num 1) = .ok ⟨9, 4⟩ ∧
    undensingField ⟨0, 0⟩ (.fixed "f" 1 1 (1/10) 1) = .ok (.num 1, ⟨0, 0⟩) := by
  have h := collapsed_range_zero_bits "a" "f" 5 5 5 1 1 (1/10) 1 1
    (by
      have : ((1 : ℚ) - 1) * (scaleForPrecision (1/10) : ℚ) = 0 := by ring
      rw [this]
      exact jsRound_eq (by norm_num) (by norm_num))
  exact ⟨h.1, h.2.1 ⟨0, 0⟩, h.2.2.1 ⟨7, 3⟩, h.2.2.2.1, h.2.2.2.2.1 ⟨9, 4⟩,
    h.2.2.2.2.2 ⟨0, 0⟩⟩

/-! ## C10: parsing never rejects foreign characters -/

/-- Claim C10 (confirmed): `getBigIntFromBaseString` has no failure path; a
character outside the alphabet maps to index `-1` and is folded into the
accumulator as `acc * |A| + (-1)`, and `undensing` of a string containing a
foreign character ('!' under base64url) succeeds and returns a record. -/
theorem parse_never_rejects_foreign_chars (alphabet : String) (c : Char)
    (hc : c ∉ alphabet.data) (s : String) :
    strIndexOfChar alphabet c = -1 ∧
    getBigIntFromBaseString (s.push c) alphabet =
      getBigIntFromBaseString s alphabet * (alphabet.length : ℤ) + (-1) ∧
    undensing boolSchema "!" "base64url" = .ok (.obj [("enabled", .bool true)]) := by
  have hidx : strIndexOfChar alphabet c = -1 := by simp [strIndexOfChar, hc]
  refine ⟨hidx, ?_, ?_⟩
  · simp [getBigIntFromBaseString, String.push, List.foldl_append, hidx]
  · have h4 : getMaxBitWidthForBase "!".length 64 = 6 := by
      show Nat.log 2 (64 ^ 1) = 6
      exact Nat.log_eq_of_pow_le_of_lt_pow (by norm_num) (by norm_num)
    have h5 : getBigIntFromBaseString "!" (getCharsForBase "base64url") = -1 := by decide
    have h6 : (getCharsForBase "base64url").length = 64 := by decide
    have e1 : (Int.fdiv (-1) (2 ^ 5)).emod 2 = 1 := by decide
    have e2 : (-1 : ℤ).emod 2 = 1 := by decide
    simp [undensing, undensingFieldList, undensingField,
      undensingDataForConstantBitWidthField, getBitWidthForContantBitWidthFields,
      BitReader.getFromBase, BitReader.readUInt, BitReader.readUBigInt, h4, h5, h6,
      boolSchema, DenseField.name, Except.bind, Except.map, Except.pure, Bind.bind,
      Pure.pure, e1, e2]

/-- Witness for C10 at the base64url alphabet, foreign character '!' and
prefix "AB". -/
theorem parse_never_rejects_foreign_chars_witness :
    strIndexOfChar base64url '!' = -1 ∧
    getBigIntFromBaseString (String.push "AB" '!') base64url =
      getBigIntFromBaseString "AB" base64url * (base64url.length : ℤ) + (-1) ∧
    undensing boolSchema "!" "base64url" = .ok (.obj [("enabled", .bool true)]) :=
  parse_never_rejects_foreign_chars base64url '!' (by decide) "AB"

/-! ## C8: undeclared enum values — silently masked for `enum`, an error
only for `enum_array` -/

/-- Counterexample to claim C8 as stated: encoding an `enum` field whose
value "z" is not among the declared options ["a", "b"] does NOT fail: the
`-1` from `indexOf` is masked by `writeUInt` to the all-ones pattern and the
call succeeds, writing 1 bit of value 1. -/
theorem densingField_enum_invalid_value_no_error :
    densingField ⟨0, 0⟩ (.enum "c" ["a", "b"] "a") (.str "z") = .ok ⟨1, 1⟩ := by
  have hco : bitsForOptions ["a", "b"] = 1 := by
    rw [bitsForOptions, bitsForRange]
    norm_num
    exact natClog_eq_of (by norm_num) (by norm_num) (by norm_num) (by norm_num)
  have e1 : (-1 : ℤ).emod 2 = 1 := by decide
  simp [densingField, getUIntForConstantBitWidthField, strListIndexOfV,
    getBitWidthForContantBitWidthFields, hco, BitWriter.writeUInt, e1,
    Except.bind, Except.map, Except.pure, Bind.bind, Pure.pure]

/-- The `enum_array` fold fails as soon as an element is undeclared. -/
theorem enumArrayFold_error_of_bad_elem (options : List String) (s : String)
    (hnot : s ∉ options) :
    ∀ (elems : List Value) (acc : ℤ), Value.str s ∈ elems →
    ∃ msg, enumArrayFold options elems acc = .error msg := by
  intro elems
  induction elems with
  | nil => intro acc h; simp at h
  | cons v rest ih =>
    intro acc hmem
    rw [enumArrayFold]
    by_cases hidx : strListIndexOfV options v = -1
    · refine ⟨"Invalid enum value in array", ?_⟩
      simp [hidx]
    · have hvrest : Value.str s ∈ rest := by
        rcases List.mem_cons.mp hmem with hv | hv
        · exfalso
          apply hidx
          rw [← hv]
          simp [strListIndexOfV, hnot]
        · exact hv
      obtain ⟨msg, hmsg⟩ := ih (acc * (sizeForOptions options : ℤ) + strListIndexOfV options v) hvrest
      exact ⟨msg, by simp [hidx, hmsg]⟩

/-- Claim C8 amended: an `enum_array` element outside the declared options
makes the encode call fail with a descriptive error, but a plain `enum` value
outside the declared options is NOT rejected — `indexOf` yields `-1`, which
`writeUInt` masks to the all-ones bit pattern `2 ^ width - 1` in the stream
(a silent corruption rather than an error). -/
theorem enum_invalid_masked_enum_array_throws :
    (∀ (w : BitWriter) (n dv s : String) (options : List String), s ∉ options →
      densingField w (.enum n options dv) (.str s) =
        .ok (w.writeUInt (-1) (bitsForOptions options))) ∧
    (∀ (w : BitWriter) (b : ℕ), 0 < b →
      (w.writeUInt (-1) b).buffer = w.buffer * 2 ^ b + (2 ^ b - 1)) ∧
    (∀ (w : BitWriter) (n en ed : String) (options : List String)
       (minL maxL : ℕ) (dfl : List String) (elems : List Value) (s : String),
      Value.str s ∈ elems → s ∉ options →
      ∃ msg, densingField w (.enum_array n en options ed minL maxL dfl) (.arr elems) =
        .error msg) := by
  refine ⟨?_, ?_, ?_⟩
  · intro w n dv s options h
    simp [densingField, getUIntForConstantBitWidthField, strListIndexOfV, h,
      getBitWidthForContantBitWidthFields,
      Except.bind, Except.map, Except.pure, Bind.bind, Pure.pure]
  · intro w b hb
    rw [BitWriter.writeUInt]
    have hb0 : b ≠ 0 := by omega
    simp only [hb0, if_false]
    have hpow : (1 : ℤ) ≤ 2 ^ b := one_le_pow₀ (by norm_num)
    have hmod : (-1 : ℤ) % (2 ^ b) = 2 ^ b - 1 := by
      have hrw : (-1 : ℤ) = (2 ^ b - 1) + (-1) * 2 ^ b := by ring
      rw [hrw, Int.add_mul_emod_self]
      exact Int.emod_eq_of_lt (by omega) (by omega)
    exact congrArg₂ _ rfl hmod
  · intro w n en ed options minL maxL dfl elems s hmem hnot
    obtain ⟨msg, hmsg⟩ := enumArrayFold_error_of_bad_elem options s hnot elems 0 hmem
    exact ⟨msg, by simp [densingField, hmsg, Except.bind, Except.map, Except.pure,
      Bind.bind, Pure.pure]⟩

/-- Witness for the amended C8. -/
theorem enum_invalid_masked_enum_array_throws_witness :
    densingField ⟨0, 0⟩ (.enum "c" ["a", "b"] "a") (.str "z") =
      .ok (BitWriter.writeUInt ⟨0, 0⟩ (-1) (bitsForOptions ["a", "b"])) ∧
    (BitWriter.writeUInt ⟨0, 0⟩ (-1) 1).buffer = 0 * 2 ^ 1 + (2 ^ 1 - 1) ∧
    (∃ msg, densingField ⟨0, 0⟩ (.enum_array "e" "i" ["a", "b"] "a" 0 4 [])
      (.arr [.str "z"]) = .error msg) := by
  have h := enum_invalid_masked_enum_array_throws
  refine ⟨h.1 ⟨0, 0⟩ "c" "a" "z" ["a", "b"] (by decide), ?_, ?_⟩
  · have := h.2.1 ⟨0, 0⟩ 1 (by norm_num)
    simpa using this
  · exact h.2.2 ⟨0, 0⟩ "e" "i" "a" ["a", "b"] 0 4 [] [.str "z"] "z" (by simp) (by decide)

/-! ## C5: enum_array mixed-radix packing (supporting lemmas and claim) -/

/-- JS BigInt `%` written `Int.emod` coincides with the `%` notation. -/
theorem intEmod_eq (a b : ℤ) : a.emod b = a % b := rfl

/-- Extracting the low digit of `m * K + i` (`i < K`). -/
theorem int_emod_of_lt (m i K : ℕ) (hi : i < K) :
    (((m * K + i : ℕ) : ℤ)).emod (K : ℤ) = (i : ℤ) := by
  rw [intEmod_eq]
  have hn : (m * K + i) % K = i := by
    rw [Nat.add_comm, Nat.add_mul_mod_self_right]
    exact Nat.mod_eq_of_lt hi
  exact_mod_cast hn

/-- Dividing `m * K + i` by `K` recovers `m` (`i < K`). -/
theorem int_fdiv_of_lt (m i K : ℕ) (hi : i < K) :
    (((m * K + i : ℕ) : ℤ)).fdiv (K : ℤ) = (m : ℤ) := by
  rw [← Int.ofNat_fdiv]
  have hn : (m * K + i) / K = m := by
    rw [Nat.add_comm, Nat.add_mul_div_right _ _ (by omega : 0 < K), Nat.div_eq_of_lt hi]
    omega
  exact_mod_cast hn

/-- `emod` is the identity on in-range naturals. -/
theorem int_emod_self_of_lt (a : ℕ) (M : ℤ) (hM : (a : ℤ) < M) :
    ((a : ℕ) : ℤ).emod M = (a : ℤ) := by
  rw [intEmod_eq]
  exact Int.emod_eq_of_lt (by positivity) hM

/-- The mixed-radix fold of the encoder equals `enumArrayIndexValue` (as the
generalized foldl) and never fails when every element is declared. -/
theorem enumArrayFold_ok (options : List String) :
    ∀ (elems : List String) (acc : ℕ), (∀ c ∈ elems, c ∈ options) →
    enumArrayFold options (elems.map .str) (acc : ℤ) =
      .ok ((elems.foldl (fun a c => a * options.length + options.indexOf c) acc : ℕ) : ℤ) := by
  intro elems
  induction elems with
  | nil => intro acc h; simp [enumArrayFold]
  | cons c rest ih =>
    intro acc h
    have hc : c ∈ options := h c (List.mem_cons_self c rest)
    have hidx : strListIndexOfV options (.str c) = (options.indexOf c : ℤ) := by
      simp [strListIndexOfV, hc]
    have hne : ¬ strListIndexOfV options (.str c) = -1 := by
      rw [hidx]; omega
    rw [List.map_cons, enumArrayFold]
    simp only [hne, if_false]
    have hacc : (acc : ℤ) * (sizeForOptions options : ℤ) + strListIndexOfV options (.str c) =
        ((acc * options.length + options.indexOf c : ℕ) : ℤ) := by
      rw [hidx, sizeForOptions]; push_cast; ring
    rw [hacc, ih (acc * options.length + options.indexOf c) (fun x hx => h x (List.mem_cons_of_mem c hx))]
    simp

/-- Bound on the mixed-radix fold: each digit is below the radix. -/
theorem foldl_idx_lt (options : List String) :
    ∀ (elems : List String) (acc : ℕ), (∀ c ∈ elems, c ∈ options) →
    elems.foldl (fun a c => a * options.length + options.indexOf c) acc <
      (acc + 1) * options.length ^ elems.length := by
  intro elems
  induction elems with
  | nil => intro acc h; simp
  | cons c rest ih =>
    intro acc h
    have hc : c ∈ options := h c (List.mem_cons_self c rest)
    have hlt : options.indexOf c < options.length := List.indexOf_lt_length.mpr hc
    calc List.foldl (fun a c => a * options.length + options.indexOf c)
          (acc * options.length + options.indexOf c) rest
        < (acc * options.length + options.indexOf c + 1) * options.length ^ rest.length :=
          ih _ (fun x hx => h x (List.mem_cons_of_mem c hx))
      _ ≤ ((acc + 1) * options.length) * options.length ^ rest.length := by
          have : acc * options.length + options.indexOf c + 1 ≤ (acc + 1) * options.length := by
            nlinarith
          exact Nat.mul_le_mul_right _ this
      _ = (acc + 1) * options.length ^ (rest.length + 1) := by ring

/-- The decoder's divmod loop inverts the encoder's fold. -/
theorem enumArrayLoop_spec (options : List String) :
    ∀ (elems : List String) (tail : List Value), (∀ c ∈ elems, c ∈ options) →
    enumArrayLoop options options.length elems.length
      ((elems.foldl (fun a c => a * options.length + options.indexOf c) 0 : ℕ) : ℤ) tail =
      elems.map .str ++ tail := by
  intro elems
  induction elems using List.reverseRecOn with
  | nil => intro tail h; simp [enumArrayLoop]
  | append_singleton xs x ih =>
    intro tail h
    have hx : x ∈ options := h x (by simp)
    have hxlt : options.indexOf x < options.length := List.indexOf_lt_length.mpr hx
    have hfold : (xs ++ [x]).foldl (fun a c => a * options.length + options.indexOf c) 0 =
        (xs.foldl (fun a c => a * options.length + options.indexOf c) 0) * options.length +
          options.indexOf x := by
      rw [List.foldl_append]
      simp
    have hlen : (xs ++ [x]).length = xs.length + 1 := by simp
    rw [hfold, hlen, enumArrayLoop]
    rw [int_emod_of_lt _ _ _ hxlt, int_fdiv_of_lt _ _ _ hxlt]
    simp only [Int.toNat_ofNat]
    rw [List.indexOf_get? hx]
    rw [ih (.str x :: tail) (fun c hc => h c (by simp [hc]))]
    simp

/-- The length delta always fits in the length-prefix width. -/
theorem sub_lt_two_pow_bitsForMinMaxLength (a b : ℕ) :
    b - a < 2 ^ bitsForMinMaxLength a b := by
  rw [bitsForMinMaxLength, bitsForRange]
  by_cases h : (b : ℤ) - (a : ℤ) + 1 ≤ 1
  · rw [if_pos h]
    omega
  · rw [if_neg h]
    have ht : ((b : ℤ) - (a : ℤ) + 1).toNat = b - a + 1 := by omega
    rw [ht]
    have := Nat.le_pow_clog (b := 2) one_lt_two (b - a + 1)
    omega

/-- `writeUInt` of an in-range natural appends it exactly (including the
degenerate zero-width case, where the value must be 0). -/
theorem writeUInt_nat (w : BitWriter) (v k : ℕ) (hv : v < 2 ^ k) :
    w.writeUInt (v : ℤ) k = ⟨w.buffer * 2 ^ k + (v : ℤ), w.bitsWritten + k⟩ := by
  rw [BitWriter.writeUInt]
  by_cases hk : k = 0
  · subst hk
    have hv0 : v = 0 := by omega
    subst hv0
    simp
  · rw [if_neg hk]
    have hc2 : ((2 : ℤ)) ^ k = ((2 ^ k : ℕ) : ℤ) := by push_cast; ring
    rw [hc2, int_emod_self_of_lt v _ (by exact_mod_cast hv)]

/-- Claim C5 (confirmed): for an `enum_array` field with `K ≥ 2` options and
an element list (within the declared length bounds, length prefix at most the
reader's 32-bit per-call ceiling) whose elements are all declared options,
`densingField` writes exactly `lengthBits + ⌈N·log₂ K⌉` bits
(`bitsForEnumArrayContent` is the exact-arithmetic `Math.ceil(N·log2 K)`),
whose content is the mixed-radix accumulator `enumArrayIndexValue`
(`acc = acc*K + index`, most-significant element first), and `undensingField`
recovers the identical element list from those bits by repeated
divmod-by-`K`. -/
theorem enum_array_mixed_radix_roundtrip
    (n en ed : String) (options : List String) (dfl : List String)
    (minL maxL : ℕ) (elems : List String)
    (hK : 2 ≤ options.length)
    (hmem : ∀ c ∈ elems, c ∈ options)
    (hmin : minL ≤ elems.length) (hmax : elems.length ≤ maxL)
    (h32 : bitsForMinMaxLength minL maxL ≤ 32) :
    (∀ w : BitWriter,
      densingField w (.enum_array n en options ed minL maxL dfl) (.arr (elems.map .str)) =
        .ok ⟨w.buffer * 2 ^ (bitsForMinMaxLength minL maxL +
              bitsForEnumArrayContent elems.length options.length) +
            ((elems.length - minL : ℕ) : ℤ) *
              2 ^ bitsForEnumArrayContent elems.length options.length +
            (enumArrayIndexValue options elems : ℤ),
          w.bitsWritten + (bitsForMinMaxLength minL maxL +
            bitsForEnumArrayContent elems.length options.length)⟩) ∧
    enumArrayIndexValue options elems <
      2 ^ bitsForEnumArrayContent elems.length options.length ∧
    undensingField
      ⟨((elems.length - minL : ℕ) : ℤ) *
          2 ^ bitsForEnumArrayContent elems.length options.length +
        (enumArrayIndexValue options elems : ℤ),
        bitsForMinMaxLength minL maxL + bitsForEnumArrayContent elems.length options.length⟩
      (.enum_array n en options ed minL maxL dfl) =
      .ok (.arr (elems.map .str),
        ⟨((elems.length - minL : ℕ) : ℤ) *
            2 ^ bitsForEnumArrayContent elems.length options.length +
          (enumArrayIndexValue options elems : ℤ), 0⟩) := by
  have hEAV : enumArrayIndexValue options elems =
      elems.foldl (fun a c => a * options.length + options.indexOf c) 0 := rfl
  have hF_lt : enumArrayIndexValue options elems <
      2 ^ bitsForEnumArrayContent elems.length options.length := by
    rw [hEAV, bitsForEnumArrayContent]
    by_cases hN : elems.length < 1
    · have : elems = [] := List.length_eq_zero.mp (by omega)
      subst this
      simp
    · rw [if_neg hN]
      have h1 := foldl_idx_lt options elems 0 hmem
      have h2 := Nat.le_pow_clog (b := 2) one_lt_two (options.length ^ elems.length)
      omega
  have hlenU_lt : elems.length - minL < 2 ^ bitsForMinMaxLength minL maxL := by
    have := sub_lt_two_pow_bitsForMinMaxLength minL maxL
    omega
  have hcb0 : bitsForEnumArrayContent elems.length options.length = 0 → elems.length = 0 := by
    intro h0
    by_contra hne
    rw [bitsForEnumArrayContent, if_neg (by omega)] at h0
    have hKN : 2 ≤ options.length ^ elems.length := by
      calc 2 ≤ options.length := hK
        _ ≤ options.length ^ elems.length := Nat.le_self_pow (by omega) _
    have := Nat.clog_pos one_lt_two hKN
    omega
  have hc2 : ∀ k : ℕ, ((2 : ℤ)) ^ k = ((2 ^ k : ℕ) : ℤ) := by intro k; push_cast; ring
  have hP : ((elems.length - minL : ℕ) : ℤ) *
        2 ^ bitsForEnumArrayContent elems.length options.length +
      (enumArrayIndexValue options elems : ℤ) =
      ((((elems.length - minL) * 2 ^ bitsForEnumArrayContent elems.length options.length +
        enumArrayIndexValue options elems : ℕ)) : ℤ) := by push_cast; ring
  refine ⟨?_, hF_lt, ?_⟩
  · -- encoder direction
    intro w
    have hfoldok := enumArrayFold_ok options elems 0 hmem
    norm_num at hfoldok
    have humm : uIntForMinMaxLength elems.length minL = ((elems.length - minL : ℕ) : ℤ) := by
      rw [uIntForMinMaxLength]; omega
    have hw1 : (if bitsForMinMaxLength minL maxL = 0 then w
        else w.writeUInt (uIntForMinMaxLength elems.length minL) (bitsForMinMaxLength minL maxL)) =
        ⟨w.buffer * 2 ^ bitsForMinMaxLength minL maxL + ((elems.length - minL : ℕ) : ℤ),
          w.bitsWritten + bitsForMinMaxLength minL maxL⟩ := by
      by_cases hlb : bitsForMinMaxLength minL maxL = 0
      · rw [if_pos hlb]
        have : elems.length - minL = 0 := by
          rw [hlb] at hlenU_lt
          omega
        rw [hlb, this]
        simp
      · rw [if_neg hlb, humm]
        exact writeUInt_nat w _ _ hlenU_lt
    simp only [densingField, List.length_map, sizeForOptions, hfoldok, Except.bind, Except.map,
      Except.pure, Bind.bind, Pure.pure, ← hEAV, hw1]
    rw [writeUInt_nat _ _ _ hF_lt]
    simp only [BitWriter.mk.injEq, Except.ok.injEq]
    constructor
    · push_cast
      ring
    · omega
  · -- decoder direction
    have hlen : lengthForUIntMinMaxLength (elems.length - minL) minL = elems.length := by
      rw [lengthForUIntMinMaxLength]; omega
    have hread1 : BitReader.readUInt
        ⟨((elems.length - minL : ℕ) : ℤ) *
            2 ^ bitsForEnumArrayContent elems.length options.length +
          (enumArrayIndexValue options elems : ℤ),
          bitsForMinMaxLength minL maxL + bitsForEnumArrayContent elems.length options.length⟩
        (bitsForMinMaxLength minL maxL) =
        .ok (elems.length - minL,
          ⟨((elems.length - minL : ℕ) : ℤ) *
              2 ^ bitsForEnumArrayContent elems.length options.length +
            (enumArrayIndexValue options elems : ℤ),
            bitsForEnumArrayContent elems.length options.length⟩) := by
      by_cases hlb : bitsForMinMaxLength minL maxL = 0
      · have hU0 : elems.length - minL = 0 := by
          rw [hlb] at hlenU_lt
          omega
        rw [BitReader.readUInt, if_pos hlb]
        simp [hlb, hU0]
      · rw [BitReader.readUInt, if_neg hlb, if_neg (by omega : ¬ 32 < bitsForMinMaxLength minL maxL)]
        rw [BitReader.readUBigInt, if_neg hlb, if_neg (by simp)]
        simp only [BitReader.bitsLeft, BitReader.buffer]
        have hshift : bitsForMinMaxLength minL maxL +
            bitsForEnumArrayContent elems.length options.length -
            bitsForMinMaxLength minL maxL =
            bitsForEnumArrayContent elems.length options.length := by omega
        rw [hshift, hP, hc2 (bitsForEnumArrayContent elems.length options.length)]
        rw [int_fdiv_of_lt _ _ _ hF_lt, int_emod_self_of_lt _ _ (by exact_mod_cast hlenU_lt)]
        rw [← hP]
        simp [Except.map]
    have hread2 : BitReader.readUBigInt
        ⟨((elems.length - minL : ℕ) : ℤ) *
            2 ^ bitsForEnumArrayContent elems.length options.length +
          (enumArrayIndexValue options elems : ℤ),
          bitsForEnumArrayContent elems.length options.length⟩
        (bitsForEnumArrayContent elems.length options.length) =
        .ok ((enumArrayIndexValue options elems : ℤ),
          ⟨((elems.length - minL : ℕ) : ℤ) *
              2 ^ bitsForEnumArrayContent elems.length options.length +
            (enumArrayIndexValue options elems : ℤ), 0⟩) := by
      by_cases hcb : bitsForEnumArrayContent elems.length options.length = 0
      · have hF0 : enumArrayIndexValue options elems = 0 := by
          rw [hcb] at hF_lt
          omega
        rw [BitReader.readUBigInt, if_pos hcb]
        simp [hcb, hF0]
      · rw [BitReader.readUBigInt, if_neg hcb, if_neg (by simp)]
        simp only [BitReader.bitsLeft, BitReader.buffer, Nat.sub_self]
        rw [pow_zero, Int.fdiv_one, hP, hc2 (bitsForEnumArrayContent elems.length options.length)]
        rw [int_emod_of_lt _ _ _ hF_lt]
    have hloop := enumArrayLoop_spec options elems [] hmem
    rw [← hEAV] at hloop
    simp only [undensingField, sizeForOptions, hread1, hread2, hlen, Except.bind, Except.map,
      Except.pure, Bind.bind, Pure.pure]
    simp [hloop]

/-- Witness for C5: two elements from a 2-option enum, bounds 0..4 — the
encoder produces 3 length bits and 2 content bits with payload 9, and the
decoder recovers the list. -/
theorem enum_array_mixed_radix_roundtrip_witness :
    densingField ⟨0, 0⟩ (.enum_array "v" "i" ["A", "B"] "A" 0 4 [])
      (.arr [.str "A", .str "B"]) = .ok ⟨9, 5⟩ ∧
    undensingField ⟨9, 5⟩ (.enum_array "v" "i" ["A", "B"] "A" 0 4 []) =
      .ok (.arr [.str "A", .str "B"], ⟨9, 0⟩) := by
  have hlb : bitsForMinMaxLength 0 4 = 3 := by
    rw [bitsForMinMaxLength, bitsForRange]
    norm_num
    exact natClog_eq_of (by norm_num) (by norm_num) (by norm_num) (by norm_num)
  have hcb : bitsForEnumArrayContent 2 2 = 2 := by
    rw [bitsForEnumArrayContent, if_neg (by norm_num)]
    exact natClog_eq_of (by norm_num) (by norm_num) (by norm_num) (by norm_num)
  have hF : enumArrayIndexValue ["A", "B"] ["A", "B"] = 1 := by decide
  have h := enum_array_mixed_radix_roundtrip "v" "i" "A" ["A", "B"] [] 0 4 ["A", "B"]
    (by norm_num) (by decide) (by norm_num) (by norm_num) (by rw [hlb]; norm_num)
  constructor
  · have h1 := h.1 ⟨0, 0⟩
    simp only [List.length_cons, List.length_nil, List.map_cons, List.map_nil] at h1
    rw [hlb, hcb, hF] at h1
    norm_num at h1
    exact h1
  · have h2 := h.2.2
    simp only [List.length_cons, List.length_nil, List.map_cons, List.map_nil] at h2
    rw [hlb, hcb, hF] at h2
    norm_num at h2
    exact h2
